/-
Verification of the Kun-peng classifier core (minimizer scanner and hit
resolution) against its natural-language specification.

The Rust sources `src/kr2r/src/mmscanner.rs` and `src/kr2r/src/classify.rs`
are shallowly embedded below: `u64` becomes `Nat` with explicit masking at
the points where Rust wraps, slices become `List Nat` with fallible
indexing (`Option`), loops become fuel-indexed structural recursion where
the fuel is chosen to reproduce the loop exactly, and `&mut` state becomes
explicit state passing.  An out-of-range slice index (a Rust panic) is
propagated as `none`.
-/
import Mathlib

set_option maxRecDepth 10000

/-- DNA build: two bits per base (`BITS_PER_CHAR` in mmscanner.rs). -/
def BITS_PER_CHAR : Nat := 2

/-- `DEFAULT_TOGGLE_MASK` from mmscanner.rs. -/
def DEFAULT_TOGGLE_MASK : Nat := 0xe37e28c4271b5a2d

/-- `DEFAULT_SPACED_SEED_MASK` from mmscanner.rs. -/
def DEFAULT_SPACED_SEED_MASK : Nat := 0

/-- 2^64, the modulus of Rust's `u64`. -/
def U64_SIZE : Nat := 18446744073709551616

/-- Scanner configuration (`Meros` in mmscanner.rs). -/
structure Meros where
  k_mer : Nat
  l_mer : Nat
  mask : Nat
  spaced_seed_mask : Nat
  toggle_mask : Nat
  min_clear_hash_value : Option Nat
deriving Repr, DecidableEq

/-- `Meros::new`: the l-mer mask is `(1 << (l_mer * BITS_PER_CHAR)) - 1`;
the toggle mask defaults to `DEFAULT_TOGGLE_MASK` and is ANDed with the
l-mer mask. -/
def Meros.new (k_mer l_mer : Nat) (spaced_seed_mask toggle_mask min_clear_hash_value : Option Nat) : Meros :=
  let mask := (1 <<< (l_mer * BITS_PER_CHAR)) - 1
  { k_mer := k_mer
    l_mer := l_mer
    mask := mask
    spaced_seed_mask := spaced_seed_mask.getD DEFAULT_SPACED_SEED_MASK
    toggle_mask := (toggle_mask.getD DEFAULT_TOGGLE_MASK) &&& mask
    min_clear_hash_value := min_clear_hash_value }

/-- `Meros::window_size`: `k_mer - l_mer` (the deque capacity). -/
def Meros.window_size (m : Meros) : Nat := m.k_mer - m.l_mer

/-- `reverse_complement` from mmscanner.rs: the five masked-shift swap
stages reverse the 32 bit pairs, then the word is complemented, shifted to
the requested width and masked.  Rust's wrapping `<< 32` is rendered as a
shift followed by `% 2^64`; the earlier shifts are already truncated by
their 64-bit mask constants.  `!kmer` on a value below 2^64 is
`kmer ^^^ (2^64 - 1)`. -/
def reverse_complement (kmer : Nat) (n : Nat) : Nat :=
  let k1 := ((kmer >>> 2) &&& 0x3333333333333333) ||| ((kmer <<< 2) &&& 0xCCCCCCCCCCCCCCCC)
  let k2 := ((k1 >>> 4) &&& 0x0F0F0F0F0F0F0F0F) ||| ((k1 <<< 4) &&& 0xF0F0F0F0F0F0F0F0)
  let k3 := ((k2 >>> 8) &&& 0x00FF00FF00FF00FF) ||| ((k2 <<< 8) &&& 0xFF00FF00FF00FF00)
  let k4 := ((k3 >>> 16) &&& 0x0000FFFF0000FFFF) ||| ((k3 <<< 16) &&& 0xFFFF0000FFFF0000)
  let k5 := ((k4 >>> 32) ||| (k4 <<< 32)) % U64_SIZE
  ((k5 ^^^ (U64_SIZE - 1)) >>> (64 - n * 2)) &&& ((1 <<< (n * 2)) - 1)

/-- `canonical_representation` (DNA build): the smaller of an l-mer and its
reverse complement. -/
def canonical_representation (kmer : Nat) (n : Nat) : Nat :=
  let revcom := reverse_complement kmer n
  if kmer < revcom then kmer else revcom

/-- `char_to_value` (DNA build): A/C/G/T (either case) to 2-bit codes. -/
def char_to_value (c : Nat) : Option Nat :=
  if c = 65 ∨ c = 97 then some 0
  else if c = 67 ∨ c = 99 then some 1
  else if c = 71 ∨ c = 103 then some 2
  else if c = 84 ∨ c = 116 then some 3
  else none

/-- `MinimizerData`: a queued candidate l-mer with its stream position. -/
structure MinimizerData where
  pos : Nat
  candidate_lmer : Nat
deriving Repr, DecidableEq

/-- `MinimizerWindow`: the monotonic deque.  The `VecDeque` is a list whose
head is the deque front. -/
structure MinimizerWindow where
  queue : List MinimizerData
  capacity : Nat
  count : Nat
deriving Repr, DecidableEq

/-- `MinimizerWindow::new`. -/
def MinimizerWindow.new (capacity : Nat) : MinimizerWindow :=
  { queue := [], capacity := capacity, count := 0 }

/-- The `while let Some(m_data) = self.queue.back()` loop of
`MinimizerWindow::next`: pop from the back while the back's candidate is
greater than the new candidate (drop the maximal such suffix). -/
def popGreaterBack (candidate_lmer : Nat) (q : List MinimizerData) : List MinimizerData :=
  (q.reverse.dropWhile (fun d => candidate_lmer < d.candidate_lmer)).reverse

/-- `MinimizerWindow::next`.  Returns the emitted minimizer (if any) and
the updated window. -/
def MinimizerWindow.next (w : MinimizerWindow) (candidate_lmer : Nat) : Option Nat × MinimizerWindow :=
  if w.capacity = 1 then
    (some candidate_lmer, w)
  else
    let q1 := popGreaterBack candidate_lmer w.queue
    let q2 := q1 ++ [{ pos := w.count, candidate_lmer := candidate_lmer }]
    if w.count < w.capacity then
      (none, { w with queue := q2, count := w.count + 1 })
    else
      let q3 :=
        match q2.head? with
        | some front => if front.pos < w.count - w.capacity then q2.tail else q2
        | none => q2
      (q3.head?.map (fun front => front.candidate_lmer),
       { w with queue := q3, count := w.count + 1 })

/-- `MinimizerWindow::clear`. -/
def MinimizerWindow.clear (w : MinimizerWindow) : MinimizerWindow :=
  { w with queue := [], count := 0 }

/-- `Cursor`: the l-mer accumulation state.  `endp` is the field `end`. -/
structure Cursor where
  pos : Nat
  endp : Nat
  inner : List Nat
  capacity : Nat
  value : Nat
  mask : Nat
  window : MinimizerWindow
deriving Repr, DecidableEq

/-- `Cursor::new`. -/
def Cursor.new (meros : Meros) : Cursor :=
  { pos := 0
    endp := 0
    inner := []
    capacity := meros.l_mer
    value := 0
    mask := meros.mask
    window := MinimizerWindow.new meros.window_size }

/-- `Cursor::next_lmer`: shift the 2-bit code into the register, maintain
the ring of the last `l_mer` codes, and emit the masked register once the
ring is full.  Rust's wrapping `value <<= 2` is truncated at 2^64. -/
def Cursor.next_lmer (c : Cursor) (item : Nat) : Option Nat × Cursor :=
  let value := ((c.value <<< BITS_PER_CHAR) % U64_SIZE) ||| item
  let inner1 := if c.inner.length = c.capacity then c.inner.drop 1 else c.inner
  let inner2 := inner1 ++ [item]
  if c.capacity ≤ inner2.length then
    let v := value &&& c.mask
    (some v, { c with inner := inner2, value := v })
  else
    (none, { c with inner := inner2, value := value })

/-- `Cursor::clear`. -/
def Cursor.clear (c : Cursor) : Cursor :=
  { c with inner := [], value := 0, window := c.window.clear }

/-- Result of `Cursor::slide`: a Rust panic (index out of bounds), loop
exit without an l-mer, or an emitted l-mer. -/
inductive SlideResult where
  | panic : SlideResult
  | done : Cursor → SlideResult
  | lmer : Nat → Cursor → SlideResult
deriving Repr, DecidableEq

/-- The body of `Cursor::slide`'s `while self.pos < self.end` loop, with
fuel bounding the number of iterations.  A byte `\n` (10) or `\r` (13)
advances the position and the *next* byte is decoded in its place — note
that this second read is not bounds-checked in the source, so it can fall
outside the slice.  A decoded base feeds `next_lmer`; an undecodable byte
clears the cursor.  Each iteration advances `pos` by at least one, so
`endp - pos` iterations always reach the loop exit. -/
def Cursor.slideAux (seq : List Nat) : Nat → Cursor → SlideResult
  | 0, c => SlideResult.done c
  | fuel + 1, c =>
    if c.pos < c.endp then
      match seq.get? c.pos with
      | none => SlideResult.panic
      | some ch =>
        if ch = 10 ∨ ch = 13 then
          match seq.get? (c.pos + 1) with
          | none => SlideResult.panic
          | some ch2 =>
            match char_to_value ch2 with
            | some code =>
              match Cursor.next_lmer { c with pos := c.pos + 2 } code with
              | (some lm, c') => SlideResult.lmer lm c'
              | (none, c') => Cursor.slideAux seq fuel c'
            | none => Cursor.slideAux seq fuel (Cursor.clear { c with pos := c.pos + 2 })
        else
          match char_to_value ch with
          | some code =>
            match Cursor.next_lmer { c with pos := c.pos + 1 } code with
            | (some lm, c') => SlideResult.lmer lm c'
            | (none, c') => Cursor.slideAux seq fuel c'
          | none => Cursor.slideAux seq fuel (Cursor.clear { c with pos := c.pos + 1 })
    else SlideResult.done c

/-- `Cursor::slide`: run the loop with fuel `endp - pos`, which covers
every iteration the Rust loop can perform. -/
def Cursor.slide (c : Cursor) (seq : List Nat) : SlideResult :=
  Cursor.slideAux seq (c.endp - c.pos) c

/-- `MinimizerScanner`. -/
structure MinimizerScanner where
  meros : Meros
  cursor : Cursor
  last_minimizer : Nat
deriving Repr, DecidableEq

/-- `MinimizerScanner::new`: `last_minimizer` starts at `u64::MAX`. -/
def MinimizerScanner.new (meros : Meros) : MinimizerScanner :=
  { meros := meros, cursor := Cursor.new meros, last_minimizer := U64_SIZE - 1 }

/-- `MinimizerScanner::reset`. -/
def MinimizerScanner.reset (s : MinimizerScanner) : MinimizerScanner :=
  { s with cursor := s.cursor.clear, last_minimizer := U64_SIZE - 1 }

/-- `MinimizerScanner::set_seq_end`: bind a slice by resetting the cursor
position and recording the slice length. -/
def MinimizerScanner.set_seq_end (s : MinimizerScanner) (seq : List Nat) : MinimizerScanner :=
  { s with cursor := { s.cursor with pos := 0, endp := seq.length } }

/-- `MinimizerScanner::to_candidate_lmer`: canonicalize, optionally apply
the spaced-seed mask, XOR the toggle mask. -/
def MinimizerScanner.to_candidate_lmer (s : MinimizerScanner) (lmer : Nat) : Nat :=
  let canonical_lmer := canonical_representation lmer s.meros.l_mer
  let canonical_lmer :=
    if 0 < s.meros.spaced_seed_mask then canonical_lmer &&& s.meros.spaced_seed_mask
    else canonical_lmer
  canonical_lmer ^^^ s.meros.toggle_mask

/-- `MinimizerScanner::next_window`: slide to the next l-mer and feed its
candidate form to the minimizer window.  `none` models the Rust panic
propagating out of `slide`. -/
def MinimizerScanner.next_window (s : MinimizerScanner) (seq : List Nat) : Option (Option Nat × MinimizerScanner) :=
  match s.cursor.slide seq with
  | SlideResult.panic => none
  | SlideResult.done c => some (none, { s with cursor := c })
  | SlideResult.lmer lm c =>
    let candidate_lmer := s.to_candidate_lmer lm
    let (r, w') := c.window.next candidate_lmer
    some (r, { s with cursor := { c with window := w' } })

/-- `MinimizerScanner::get_last_minimizer`: always `None` in the source. -/
def MinimizerScanner.get_last_minimizer (_s : MinimizerScanner) : Option Nat := none

/-- The `while self.cursor.has_next()` loop of
`MinimizerScanner::next_minimizer`, fuel-indexed.  Each `next_window` call
that does not exit advances the cursor position, so fuel `endp - pos`
covers every iteration; when the loop exits the cursor is cleared and
`none` is delivered.  The outer `Option` models a panic inside `slide`. -/
def MinimizerScanner.nmAux (seq : List Nat) : Nat → MinimizerScanner → Option (Option Nat × MinimizerScanner)
  | 0, s => some (none, { s with cursor := s.cursor.clear })
  | fuel + 1, s =>
    if s.cursor.pos < s.cursor.endp then
      match s.next_window seq with
      | none => none
      | some (some minimizer, s') =>
        if minimizer ≠ s'.last_minimizer then
          some (some (minimizer ^^^ s'.meros.toggle_mask), { s' with last_minimizer := minimizer })
        else MinimizerScanner.nmAux seq fuel s'
      | some (none, s') => MinimizerScanner.nmAux seq fuel s'
    else some (none, { s with cursor := s.cursor.clear })

/-- `MinimizerScanner::next_minimizer` (consecutive-duplicate
suppressing). -/
def MinimizerScanner.next_minimizer (s : MinimizerScanner) (seq : List Nat) : Option (Option Nat × MinimizerScanner) :=
  MinimizerScanner.nmAux seq (s.cursor.endp - s.cursor.pos) s

/-- The loop of `MinimizerScanner::next_minimizer_inclusive`,
fuel-indexed like `nmAux` but without duplicate suppression. -/
def MinimizerScanner.nmiAux (seq : List Nat) : Nat → MinimizerScanner → Option (Option Nat × MinimizerScanner)
  | 0, s => some (none, { s with cursor := s.cursor.clear })
  | fuel + 1, s =>
    if s.cursor.pos < s.cursor.endp then
      match s.next_window seq with
      | none => none
      | some (some minimizer, s') =>
        some (some (minimizer ^^^ s'.meros.toggle_mask), s')
      | some (none, s') => MinimizerScanner.nmiAux seq fuel s'
    else some (none, { s with cursor := s.cursor.clear })

/-- `MinimizerScanner::next_minimizer_inclusive`. -/
def MinimizerScanner.next_minimizer_inclusive (s : MinimizerScanner) (seq : List Nat) : Option (Option Nat × MinimizerScanner) :=
  MinimizerScanner.nmiAux seq (s.cursor.endp - s.cursor.pos) s

/-- Iterate `next_minimizer`, collecting the emitted values until the
scanner reports end of slice or panics.  The fuel bounds the number of
calls; `seq.length + 1` always suffices for a freshly bound slice. -/
def MinimizerScanner.emitAux (seq : List Nat) : Nat → MinimizerScanner → List Nat
  | 0, _ => []
  | fuel + 1, s =>
    match s.next_minimizer seq with
    | some (some m, s') => m :: MinimizerScanner.emitAux seq fuel s'
    | _ => []

/-- The de-duplicated minimizer stream of a scanner bound to `seq`
(emissions up to the first end-of-slice or panic). -/
def MinimizerScanner.emissions (s : MinimizerScanner) (seq : List Nat) : List Nat :=
  MinimizerScanner.emitAux seq (seq.length + 1) s

/-- The stream of a freshly constructed scanner bound to `seq`. -/
def scanEmissions (m : Meros) (seq : List Nat) : List Nat :=
  ((MinimizerScanner.new m).set_seq_end seq).emissions seq

/-- ASCII codes of a string, the byte view of a Rust `&[u8]` sequence. -/
def toSeq (s : String) : List Nat := s.toList.map Char.toNat

/-- Modelled from the spec: `TaxonomyNode` (taxonomy.rs is not under
src/).  Only the fields the classifier core reads are kept: `parent_id`
and `external_id`; node 0 is the unclassified sentinel with external id
0. -/
structure TaxonomyNode where
  parent_id : Nat
  external_id : Nat
deriving Repr, DecidableEq

/-- Modelled from the spec: `Taxonomy` owns a contiguous node array. -/
structure Taxonomy where
  nodes : List TaxonomyNode
deriving Repr, DecidableEq

/-- The sentinel node used for out-of-range access in this model. -/
def sentinelNode : TaxonomyNode := { parent_id := 0, external_id := 0 }

/-- `taxonomy.nodes[i]` in this model. -/
def Taxonomy.node (t : Taxonomy) (i : Nat) : TaxonomyNode :=
  t.nodes.getD i sentinelNode

/-- Modelled from the spec: the parent walk of `is_a_ancestor_of_b`
(taxonomy.rs is not under src/): walk parents from `b` until `a` or node 0
is reached.  Parents of well-formed taxonomies are strictly smaller than
their children, so fuel `b` covers the walk. -/
def Taxonomy.ancestorAux (t : Taxonomy) (a : Nat) : Nat → Nat → Bool
  | 0, b => decide (a = b)
  | fuel + 1, b =>
    if b = a then true
    else if b = 0 then false
    else t.ancestorAux a fuel (t.node b).parent_id

/-- Modelled from the spec: `is_a_ancestor_of_b(a, b)` is true iff walking
parents from `b` (including `b` itself) reaches `a`; `a == 0` or `b == 0`
returns false. -/
def Taxonomy.is_a_ancestor_of_b (t : Taxonomy) (a b : Nat) : Bool :=
  if a = 0 ∨ b = 0 then false else t.ancestorAux a b b

/-- Modelled from the spec: per-node depth (distance to node 0), used by
`lca` to lift the deeper node first. -/
def Taxonomy.depthAux (t : Taxonomy) : Nat → Nat → Nat
  | 0, _ => 0
  | fuel + 1, b => if b = 0 then 0 else 1 + t.depthAux fuel (t.node b).parent_id

/-- Node depth with fuel `b` (enough when parents decrease). -/
def Taxonomy.depth (t : Taxonomy) (b : Nat) : Nat := t.depthAux b b

/-- Modelled from the spec: the equal-depth lift-and-walk of `lca`. -/
def Taxonomy.lcaAux (t : Taxonomy) : Nat → Nat → Nat → Nat
  | 0, a, _ => a
  | fuel + 1, a, b =>
    if a = b then a
    else if t.depth a < t.depth b then t.lcaAux fuel a (t.node b).parent_id
    else t.lcaAux fuel (t.node a).parent_id b

/-- Modelled from the spec: `lca(a, b)` with `lca(0, x) = x` and
`lca(x, 0) = x`. -/
def Taxonomy.lca (t : Taxonomy) (a b : Nat) : Nat :=
  if a = 0 then b
  else if b = 0 then a
  else t.lcaAux (t.depth a + t.depth b + 1) a b

/-- `counts.get(&k)` on the association-list model of
`HashMap<u32, u64>`. -/
def countsGet (m : List (Nat × Nat)) (k : Nat) : Option Nat :=
  (m.find? (fun p => p.1 = k)).map (fun p => p.2)

/-- `*counts.entry(k).or_insert(0) += 1` on the association-list model. -/
def countsIncr : List (Nat × Nat) → Nat → List (Nat × Nat)
  | [], k => [(k, 1)]
  | p :: rest, k => if p.1 = k then (p.1, p.2 + 1) :: rest else p :: countsIncr rest k

/-- The inner loop of `resolve_tree`'s first phase: the path score of
`taxon`, the sum of counts at `taxon` and its ancestors among the observed
taxa. -/
def pathScore (hit_counts : List (Nat × Nat)) (taxonomy : Taxonomy) (taxon : Nat) : Nat :=
  hit_counts.foldl (fun s q => if taxonomy.is_a_ancestor_of_b q.1 taxon then s + q.2 else s) 0

/-- The climb-phase score of `resolve_tree`: the sum of counts over the
observed taxa that `taxon` is an ancestor of (its clade). -/
def cladeSum (hit_counts : List (Nat × Nat)) (taxonomy : Taxonomy) (taxon : Nat) : Nat :=
  hit_counts.foldl (fun s q => if taxonomy.is_a_ancestor_of_b taxon q.1 then s + q.2 else s) 0

/-- The `while max_taxon != 0 && max_score < required_score` climb loop of
`resolve_tree`, fuel-indexed: recompute the clade score of the current
taxon, stop if it meets the threshold, otherwise climb to the parent. -/
def resolveClimb (hit_counts : List (Nat × Nat)) (taxonomy : Taxonomy) (required_score : Nat) : Nat → Nat → Nat → Nat
  | 0, max_taxon, _ => max_taxon
  | fuel + 1, max_taxon, max_score =>
    if max_taxon ≠ 0 ∧ max_score < required_score then
      let s := cladeSum hit_counts taxonomy max_taxon
      if required_score ≤ s then max_taxon
      else resolveClimb hit_counts taxonomy required_score fuel (taxonomy.node max_taxon).parent_id s
    else max_taxon

/-- `resolve_tree` (classify.rs): phase 1 picks the taxon with the best
path score, folding ties by `lca`; the score is then reset to the chosen
taxon's own count and the climb loop runs.  The `HashMap` iteration is the
association list's order; the climb fuel `max_taxon + 1` covers the parent
walk of a well-formed taxonomy. -/
def resolve_tree (hit_counts : List (Nat × Nat)) (taxonomy : Taxonomy) (required_score : Nat) : Nat :=
  let best := hit_counts.foldl (fun acc p =>
      let score := pathScore hit_counts taxonomy p.1
      if acc.2 < score then (p.1, score)
      else if score = acc.2 then (taxonomy.lca acc.1 p.1, acc.2)
      else acc) (0, 0)
  let max_taxon := best.1
  let max_score := (countsGet hit_counts max_taxon).getD 0
  resolveClimb hit_counts taxonomy required_score (max_taxon + 1) max_taxon max_score

/-- Modelled from the spec: `Compact::right`, the taxon is the cell value
ANDed with the value mask (compact_hash.rs is not under src/). -/
def Compact.right (value : Nat) (value_mask : Nat) : Nat := value &&& value_mask

/-- A `Row` of a `HitGroup`: k-mer position and raw compact-cell value. -/
structure HitRow where
  kmer_id : Nat
  value : Nat
deriving Repr, DecidableEq

/-- Modelled from the spec: `HitGroup` (its definition is not under src/):
the rows of per-k-mer hits and the position range of the k-mer stream. -/
structure HitGroup where
  rows : List HitRow
  range_start : Nat
  range_endp : Nat
deriving Repr, DecidableEq

/-- Modelled from the spec: `HitGroup::capacity` is the hit-group count,
the number of emitted minimizers that produced a hit row. -/
def HitGroup.capacity (hg : HitGroup) : Nat := hg.rows.length

/-- Modelled from the spec: per-taxon counter with a read count and the
distinct-kmer estimator state (modelled as the list of added cell
values). -/
structure TaxonCounter where
  read_count : Nat
  kmers : List Nat
deriving Repr, DecidableEq

instance : Inhabited TaxonCounter := ⟨{ read_count := 0, kmers := [] }⟩

/-- `add_kmer`: feed a cell value to the cardinality estimator. -/
def TaxonCounter.add_kmer (tc : TaxonCounter) (v : Nat) : TaxonCounter :=
  { tc with kmers := tc.kmers ++ [v] }

/-- `increment_read_count`. -/
def TaxonCounter.increment_read_count (tc : TaxonCounter) : TaxonCounter :=
  { tc with read_count := tc.read_count + 1 }

/-- `TaxonCounters`: per-taxon counters as an association list. -/
abbrev TaxonCounters := List (Nat × TaxonCounter)

/-- `m.entry(k).or_default()` followed by an update, on the
association-list model. -/
def tcUpdate : TaxonCounters → Nat → (TaxonCounter → TaxonCounter) → TaxonCounters
  | [], k, f => [(k, f default)]
  | p :: rest, k, f => if p.1 = k then (p.1, f p.2) :: rest else p :: tcUpdate rest k f

/-- Modelled from the spec: `SpaceDist` (seqkmer is not under src/), the
positional trace over the k-mer range.  `add` calls are kept as a log of
`(position, external id)` pairs; the dense slot view and the serialized
form are derived from the log. -/
structure SpaceDist where
  start : Nat
  endp : Nat
  log : List (Nat × Nat)
deriving Repr, DecidableEq

/-- `SpaceDist::new` over a range. -/
def SpaceDist.new (start endp : Nat) : SpaceDist :=
  { start := start, endp := endp, log := [] }

/-- `SpaceDist::add`: record `ext_code` at k-mer position `pos`. -/
def SpaceDist.add (sd : SpaceDist) (ext_code pos : Nat) : SpaceDist :=
  { sd with log := sd.log ++ [(pos, ext_code)] }

/-- `fill_tail_with_zeros`: the dense view already reads unwritten slots
as zero, so the log is unchanged. -/
def SpaceDist.fill_tail_with_zeros (sd : SpaceDist) : SpaceDist := sd

/-- The dense slot view of the trace: the last value recorded at a
position, zero if none. -/
def SpaceDist.denseAt (sd : SpaceDist) (pos : Nat) : Nat :=
  (((sd.log.filter (fun p => p.1 = pos)).getLast?).map (fun p => p.2)).getD 0

/-- Run-length encode a list into (value, run length) pairs. -/
def rle : List Nat → List (Nat × Nat) :=
  List.foldr (fun v acc =>
    match acc with
    | (v', c) :: rest => if v = v' then (v', c + 1) :: rest else (v, 1) :: (v', c) :: rest
    | [] => [(v, 1)]) []

/-- `reduce_str`: serialize the dense trace as `value:count` runs. -/
def SpaceDist.reduce_str (sd : SpaceDist) (_sep : String) : String :=
  let dense := (List.range (sd.endp - sd.start)).map (fun i => sd.denseAt (sd.start + i))
  String.intercalate " " ((rle dense).map (fun p => toString p.1 ++ ":" ++ toString p.2))

/-- The body of `stat_hits`'s row loop: mask the cell value to the taxon
key, bump its count, feed the cell value to its counter's estimator, and
record the taxon's external id at the row's k-mer position. -/
def statStep (value_mask : Nat) (taxonomy : Taxonomy)
    (acc : List (Nat × Nat) × TaxonCounters × SpaceDist) (row : HitRow) :
    List (Nat × Nat) × TaxonCounters × SpaceDist :=
  let key := Compact.right row.value value_mask
  let counts' := countsIncr acc.1 key
  let tc' := tcUpdate acc.2.1 key (fun c => c.add_kmer row.value)
  let ext_code := (taxonomy.node key).external_id
  let sd' := acc.2.2.add ext_code row.kmer_id
  (counts', tc', sd')

/-- The row loop of `stat_hits`: accumulate the per-taxon counts, the
taxon counters and the positional trace over the rows. -/
def statFold (hits : HitGroup) (counts : List (Nat × Nat)) (value_mask : Nat)
    (taxonomy : Taxonomy) (cur_taxon_counts : TaxonCounters) :
    List (Nat × Nat) × TaxonCounters × SpaceDist :=
  hits.rows.foldl (statStep value_mask taxonomy)
    (counts, cur_taxon_counts, SpaceDist.new hits.range_start hits.range_endp)

/-- `stat_hits` (classify.rs): run the row loop, then serialize the trace;
returns the serialized trace together with the updated counts map and
taxon counters (the Rust `&mut` outputs). -/
def stat_hits (hits : HitGroup) (counts : List (Nat × Nat)) (value_mask : Nat)
    (taxonomy : Taxonomy) (cur_taxon_counts : TaxonCounters) :
    String × List (Nat × Nat) × TaxonCounters :=
  let r := statFold hits counts value_mask taxonomy cur_taxon_counts
  (r.2.2.fill_tail_with_zeros.reduce_str " |:| ", r.1, r.2.1)

/-- `process_hitgroup` (classify.rs): accumulate hits, resolve the call,
apply the minimum-hit-groups gate, and produce the flag, the external id
of the call, the serialized trace and the taxon counters.  The
`AtomicUsize` classified-read counter is passed and returned
explicitly. -/
def process_hitgroup (hits : HitGroup) (taxonomy : Taxonomy) (classify_counter : Nat)
    (required_score : Nat) (minimum_hit_groups : Nat) (value_mask : Nat) :
    (String × Nat × String × TaxonCounters) × Nat :=
  let hit_groups := hits.capacity
  let r := stat_hits hits [] value_mask taxonomy []
  let hit_string := r.1
  let counts := r.2.1
  let cur_taxon_counts := r.2.2
  let call := resolve_tree counts taxonomy required_score
  let call := if 0 < call ∧ hit_groups < minimum_hit_groups then 0 else call
  let ext_call := (taxonomy.node call).external_id
  if 0 < call then
    (("C", ext_call, hit_string, tcUpdate cur_taxon_counts call (fun c => c.increment_read_count)),
     classify_counter + 1)
  else
    (("U", ext_call, hit_string, cur_taxon_counts), classify_counter)

/-- Feed a stream of candidate l-mers through a minimizer window,
collecting each step's output. -/
def windowRun : MinimizerWindow → List Nat → List (Option Nat)
  | _, [] => []
  | w, c :: rest =>
    let r := w.next c
    r.1 :: windowRun r.2 rest

/-- Iterate `next_minimizer`, returning the emitted values and the
scanner state right after the end-of-slice `None` (or `none` on panic
or fuel exhaustion). -/
def MinimizerScanner.runAux (seq : List Nat) : Nat → MinimizerScanner → List Nat × Option MinimizerScanner
  | 0, _ => ([], none)
  | fuel + 1, s =>
    match s.next_minimizer seq with
    | none => ([], none)
    | some (none, s') => ([], some s')
    | some (some m, s') =>
      let r := MinimizerScanner.runAux seq fuel s'
      (m :: r.1, r.2)

/-- Run a scanner over a bound slice to completion. -/
def MinimizerScanner.run (s : MinimizerScanner) (seq : List Nat) : List Nat × Option MinimizerScanner :=
  MinimizerScanner.runAux seq (seq.length + 1) s

/-- The confidence-gate scenario taxonomy: node 1 is the parent P of the
two leaves 2 and 3; external ids are 10, 20, 30. -/
def taxLeafSibling : Taxonomy :=
  { nodes := [ { parent_id := 0, external_id := 0 },
               { parent_id := 0, external_id := 10 },
               { parent_id := 1, external_id := 20 },
               { parent_id := 1, external_id := 30 } ] }

/-- A two-node taxonomy for the hit-group gate scenario: node 2 under
root 1, external ids 11 and 22. -/
def taxGate : Taxonomy :=
  { nodes := [ { parent_id := 0, external_id := 0 },
               { parent_id := 0, external_id := 11 },
               { parent_id := 1, external_id := 22 } ] }

/-- One hit row on taxon 2 (cell value 2, low four bits are the value
bits). -/
def hgGate : HitGroup :=
  { rows := [ { kmer_id := 0, value := 2 } ], range_start := 0, range_endp := 1 }

/-- One hit row whose cell value masks to taxon 0. -/
def hgZeroRow : HitGroup :=
  { rows := [ { kmer_id := 7, value := 0 } ], range_start := 0, range_endp := 8 }

/-- The cursor fields that survive every scanner operation: the
configuration-derived capacities, the l-mer mask and the bound end. -/
def cursorPersist (c c' : Cursor) : Prop :=
  c'.capacity = c.capacity ∧ c'.mask = c.mask ∧
  c'.window.capacity = c.window.capacity ∧ c'.endp = c.endp

/-- One-minimizer scenario for reuse checks: k=10, l=5 over ten A bytes. -/
def merosA : Meros := Meros.new 10 5 none none none

/-- The ten-A byte sequence. -/
def seqOfA : List Nat := toSeq "AAAAAAAAAA"

/-- A fresh scanner bound to the ten-A sequence. -/
def scanA0 : MinimizerScanner := (MinimizerScanner.new merosA).set_seq_end seqOfA

/-- The scanner state after the first `next_minimizer` call (one value
emitted). -/
def scanA1 : MinimizerScanner := ((scanA0.next_minimizer seqOfA).getD (none, scanA0)).2

/-- The scanner state after the second call (end of slice, `None`). -/
def scanA2 : MinimizerScanner := ((scanA1.next_minimizer seqOfA).getD (none, scanA1)).2

/-- The monotonic-deque invariant tying a window state to the stream of
candidates `xs` it has consumed: the count tracks the stream length, the
queue is strictly increasing in position and non-decreasing in value,
every entry carries an in-window position with its stream value, and a
window position is enqueued exactly when no later in-stream value is
smaller. -/
def WinInv (cap : Nat) (xs : List Nat) (w : MinimizerWindow) : Prop :=
  w.capacity = cap ∧ w.count = xs.length ∧
  List.Pairwise (fun d e => d.pos < e.pos ∧ d.candidate_lmer ≤ e.candidate_lmer) w.queue ∧
  (∀ d ∈ w.queue, d.pos < xs.length ∧ xs.length ≤ d.pos + cap + 1 ∧
    xs.getD d.pos 0 = d.candidate_lmer) ∧
  (∀ j, j < xs.length → xs.length ≤ j + cap + 1 →
    ((∃ d ∈ w.queue, d.pos = j) ↔
      (∀ j', j < j' → j' < xs.length → xs.getD j 0 ≤ xs.getD j' 0)))

/-- Claim C1: with Meros k=10, l=5, default toggle mask, no spaced seed
and no subsampling, binding the scanner to "ACGATCGACGACG" and calling
`next_minimizer` twice yields `Some 0x2D8` and then `Some 0x218`. -/
theorem c1_scanner_smoke :
    ((((MinimizerScanner.new (Meros.new 10 5 none none none)).set_seq_end
        (toSeq "ACGATCGACGACG")).next_minimizer (toSeq "ACGATCGACGACG")).bind
      (fun p => (p.2.next_minimizer (toSeq "ACGATCGACGACG")).map (fun q => (p.1, q.1))))
    = some (some 0x2D8, some 0x218) := by decide

/-- Claim C8: feeding [4,3,5,2,6,2,1] into a `MinimizerWindow` of capacity
2 and collecting every `some` output of `next` yields [3,2,2,2,1]. -/
theorem c8_monotonic_deque :
    (windowRun (MinimizerWindow.new 2) [4, 3, 5, 2, 6, 2, 1]).filterMap id
      = [3, 2, 2, 2, 1] := by decide

/-- Claim C6 (failing input): scanning is not total — on the sequence
"A\n", whose final byte is a newline, the inline newline skip reads one
byte past the end of the slice and panics (modelled as `none`); moreover
"\r\n" is not skipped inline but clears the window: "AAAAA\r\nAAAAA"
emits nothing although "AAAAAAAAAA" (the same sequence with the newline
bytes removed) emits one minimizer. -/
theorem c6_newline_panic :
    (((MinimizerScanner.new (Meros.new 10 5 none none none)).set_seq_end
        (toSeq "A\n")).next_minimizer (toSeq "A\n") = none) ∧
    scanEmissions (Meros.new 10 5 none none none) (toSeq "AAAAA\r\nAAAAA") = [] ∧
    scanEmissions (Meros.new 10 5 none none none) (toSeq "AAAAAAAAAA") = [0] := by
  refine ⟨by decide, by decide, by decide⟩

/-- Claim C2 (counterexample): with k=6, l=5 (so k_mer > l_mer and
w = k_mer - l_mer + 1 = 2), the run "AAAAAC" of exactly k_mer = 6 valid
bases yields two minimizers, not one, because the capacity-1 deque
shortcut emits every candidate from the first one on. -/
theorem c2_counterexample :
    scanEmissions (Meros.new 6 5 none none none) (toSeq "AAAAAC") = [0, 1] ∧
    (toSeq "AAAAAC").length = 6 ∧
    (Meros.new 6 5 none none none).k_mer - (Meros.new 6 5 none none none).l_mer + 1 = 2 := by
  refine ⟨by decide, by decide, by decide⟩

/-- Claim C5 (counterexample): a hit group with a single row whose cell
value masks to taxon 0 produces a counts map in which taxon 0 *does*
appear as a key (with count 1). -/
theorem c5_counterexample :
    countsGet (statFold hgZeroRow [] 0xF taxGate []).1 0 = some 1 := by decide

/-- Claim C7 (counterexample): running a fresh scanner (k=10, l=5) over
"AAAAAAAAAA" to completion emits [0]; rebinding the very same scanner to
the same slice emits nothing, because `last_minimizer` survives the
end-of-slice clear and suppresses the repeated minimizer — so the reused
scanner does not reproduce a fresh scanner's stream. -/
theorem c7_counterexample :
    (((MinimizerScanner.new (Meros.new 10 5 none none none)).set_seq_end
        (toSeq "AAAAAAAAAA")).run (toSeq "AAAAAAAAAA")).1 = [0] ∧
    ((((MinimizerScanner.new (Meros.new 10 5 none none none)).set_seq_end
        (toSeq "AAAAAAAAAA")).run (toSeq "AAAAAAAAAA")).2.map
      (fun s1 => (s1.set_seq_end (toSeq "AAAAAAAAAA")).emissions (toSeq "AAAAAAAAAA")))
      = some [] := by
  refine ⟨by decide, by decide⟩

/-- Claim C3: `resolve_tree` climbs for the threshold: with counts
{leaf 2 ↦ 1, sibling 3 ↦ 1} under parent 1 and required score 2 the call
is the parent 1; the climb loop returns 0 whenever it reaches node 0; and
each climb step recomputes the clade score of the current taxon, stops as
soon as it meets the threshold, and otherwise moves to the parent. -/
theorem c3_resolve_tree_climb :
    resolve_tree [(2, 1), (3, 1)] taxLeafSibling 2 = 1 ∧
    (∀ hc t req fuel ms, resolveClimb hc t req fuel 0 ms = 0) ∧
    (∀ hc t req fuel mt ms, resolveClimb hc t req (fuel + 1) mt ms =
      if mt ≠ 0 ∧ ms < req then
        (if req ≤ cladeSum hc t mt then mt
         else resolveClimb hc t req fuel (t.node mt).parent_id (cladeSum hc t mt))
      else mt) := by
  refine ⟨by decide, ?_, ?_⟩
  · intro hc t req fuel ms
    cases fuel with
    | zero => rfl
    | succ f => simp [resolveClimb]
  · intro hc t req fuel mt ms
    rfl

/-- Claim C4: whenever the preliminary call of `resolve_tree` is nonzero
but the hit-group count is below `minimum_hit_groups`, `process_hitgroup`
forces the call to 0 and returns the flag "U" together with the external
id of node 0. -/
theorem c4_min_hit_groups_gate (hg : HitGroup) (t : Taxonomy) (cc req mhg vmask : Nat)
    (hcall : 0 < resolve_tree (stat_hits hg [] vmask t []).2.1 t req)
    (hlt : hg.capacity < mhg) :
    (process_hitgroup hg t cc req mhg vmask).1.1 = "U" ∧
    (process_hitgroup hg t cc req mhg vmask).1.2.1 = (t.node 0).external_id := by
  simp [process_hitgroup, hcall, hlt]

/-- Witness for C4: with `minimum_hit_groups = 2` and exactly one hit
group whose preliminary call is taxon 2 ≠ 0, the final call is 0 with
flag "U". -/
theorem c4_min_hit_groups_gate_witness :
    0 < resolve_tree (stat_hits hgGate [] 0xF taxGate []).2.1 taxGate 0 ∧
    hgGate.capacity < 2 ∧
    ((process_hitgroup hgGate taxGate 0 0 2 0xF).1.1 = "U" ∧
     (process_hitgroup hgGate taxGate 0 0 2 0xF).1.2.1 = (taxGate.node 0).external_id) :=
  ⟨by decide, by decide, c4_min_hit_groups_gate hgGate taxGate 0 0 2 0xF (by decide) (by decide)⟩

/-- Looking a key up after an increment: the incremented key's count grows
by one (appearing with count 1 if absent), other keys are unchanged. -/
theorem countsGet_countsIncr (m : List (Nat × Nat)) (k k' : Nat) :
    countsGet (countsIncr m k') k =
      if k = k' then some ((countsGet m k).getD 0 + 1) else countsGet m k := by
  induction m with
  | nil =>
    by_cases h : k = k'
    · subst h; simp [countsGet, countsIncr]
    · simp [countsGet, countsIncr, h, Ne.symm h]
  | cons p rest ih =>
    simp only [countsIncr]
    by_cases hp : p.1 = k'
    · rw [if_pos hp]
      by_cases hk : k = k'
      · subst hk
        simp [countsGet, hp]
      · have hpk : ¬ p.1 = k := by rw [hp]; exact fun h => hk h.symm
        simp [countsGet, hpk, hk]
    · rw [if_neg hp]
      by_cases hpk : p.1 = k
      · have hk : ¬ k = k' := fun h => hp (by rw [hpk, h])
        simp [countsGet, hpk, hk]
      · simp only [countsGet] at ih ⊢
        simp [List.find?_cons, hpk, ih]

/-- The counts component of the row loop is the fold of `countsIncr` over
the rows' masked keys. -/
theorem foldl_statStep_fst (vm : Nat) (t : Taxonomy) (rows : List HitRow) :
    ∀ acc : List (Nat × Nat) × TaxonCounters × SpaceDist,
      (rows.foldl (statStep vm t) acc).1 =
        rows.foldl (fun c r => countsIncr c (Compact.right r.value vm)) acc.1 := by
  induction rows with
  | nil => intro acc; rfl
  | cons r rows ih =>
    intro acc
    simpa using ih (statStep vm t acc r)

/-- The trace log of the row loop appends, in order, one
`(position, external id)` entry per row. -/
theorem foldl_statStep_log (vm : Nat) (t : Taxonomy) (rows : List HitRow) :
    ∀ acc : List (Nat × Nat) × TaxonCounters × SpaceDist,
      (rows.foldl (statStep vm t) acc).2.2.log =
        acc.2.2.log ++
          rows.map (fun r => (r.kmer_id, (t.node (Compact.right r.value vm)).external_id)) := by
  induction rows with
  | nil => intro acc; simp
  | cons r rows ih =>
    intro acc
    rw [List.foldl_cons, ih (statStep vm t acc r)]
    simp [statStep, SpaceDist.add]

/-- Folding `countsIncr` over the rows: a key's final count is its initial
count plus the number of rows carrying that key, present exactly when one
of the two is nonempty. -/
theorem countsGet_foldl_incr (vm : Nat) (k : Nat) (rows : List HitRow) :
    ∀ m : List (Nat × Nat),
      countsGet (rows.foldl (fun c r => countsIncr c (Compact.right r.value vm)) m) k =
        if (countsGet m k).isSome ∨ 0 < (rows.filter (fun r => Compact.right r.value vm = k)).length
        then some ((countsGet m k).getD 0 + (rows.filter (fun r => Compact.right r.value vm = k)).length)
        else none := by
  induction rows with
  | nil =>
    intro m
    cases h : countsGet m k <;> simp [h]
  | cons r rows ih =>
    intro m
    rw [List.foldl_cons, ih (countsIncr m (Compact.right r.value vm))]
    by_cases hk : Compact.right r.value vm = k
    · simp only [countsGet_countsIncr, if_pos hk.symm, hk]
      simp only [Option.isSome_some, true_or, if_true, Option.getD_some]
      rw [if_pos (Or.inr (by simp [List.filter_cons, hk]))]
      simp [List.filter_cons, hk, Nat.add_assoc, Nat.add_comm 1]
    · have hk' : ¬ k = Compact.right r.value vm := fun h => hk h.symm
      simp only [countsGet_countsIncr, if_neg hk', hk]
      simp [List.filter_cons, hk]

/-- Claim C5 (amended): a row whose cell value masks to taxon 0 records
node 0's external id (zero) at the row's k-mer position in the positional
trace, but the row *is* counted like any other: after `stat_hits` every
taxon key k — taxon 0 included — maps to the number of rows masking to k,
so taxon 0 appears as a key exactly when such a row exists. -/
theorem c5_zero_taxon_rows (hg : HitGroup) (t : Taxonomy) (vmask : Nat)
    (h0 : (t.node 0).external_id = 0) :
    (∀ k, countsGet (statFold hg [] vmask t []).1 k =
      if 0 < (hg.rows.filter (fun r => Compact.right r.value vmask = k)).length
      then some (hg.rows.filter (fun r => Compact.right r.value vmask = k)).length
      else none) ∧
    (statFold hg [] vmask t []).2.2.log =
      hg.rows.map (fun r => (r.kmer_id, (t.node (Compact.right r.value vmask)).external_id)) ∧
    (∀ r ∈ hg.rows, Compact.right r.value vmask = 0 →
      (r.kmer_id, (0 : Nat)) ∈ (statFold hg [] vmask t []).2.2.log) := by
  have hlog : (statFold hg [] vmask t []).2.2.log =
      hg.rows.map (fun r => (r.kmer_id, (t.node (Compact.right r.value vmask)).external_id)) := by
    unfold statFold
    rw [foldl_statStep_log]
    simp [SpaceDist.new]
  refine ⟨?_, hlog, ?_⟩
  · intro k
    unfold statFold
    rw [foldl_statStep_fst, countsGet_foldl_incr]
    simp [countsGet]
  · intro r hr hkey
    rw [hlog]
    refine List.mem_map.mpr ⟨r, hr, ?_⟩
    rw [hkey, h0]

/-- Witness for C5 (amended): the single row `(kmer_id 7, value 0)` masks
to taxon 0, is counted (`counts[0] = 1`) and records a zero at position
7 in the trace. -/
theorem c5_zero_taxon_rows_witness :
    (taxGate.node 0).external_id = 0 ∧
    countsGet (statFold hgZeroRow [] 0xF taxGate []).1 0 = some 1 ∧
    ((7 : Nat), (0 : Nat)) ∈ (statFold hgZeroRow [] 0xF taxGate []).2.2.log := by
  have h := c5_zero_taxon_rows hgZeroRow taxGate 0xF (by decide)
  exact ⟨by decide, (h.1 0).trans (by decide),
    h.2.2 { kmer_id := 7, value := 0 } (by decide) (by decide)⟩
/-- The first swap stage of `reverse_complement` exchanges adjacent bit
pairs: output bit i is input bit i XOR 2. -/
theorem stageSwap2 (x i : Nat) (hi : i < 64) :
    (((x >>> 2) &&& 0x3333333333333333) ||| ((x <<< 2) &&& 0xCCCCCCCCCCCCCCCC)).testBit i
      = x.testBit (i + 2 - 4 * ((i / 2) % 2)) := by
  have hm1 : ∀ j, j < 64 → (0x3333333333333333 : Nat).testBit j = decide ((j / 2) % 2 = 0) := by decide
  have hm2 : ∀ j, j < 64 → (0xCCCCCCCCCCCCCCCC : Nat).testBit j = decide ((j / 2) % 2 = 1) := by decide
  rw [Nat.testBit_or, Nat.testBit_and, Nat.testBit_and, Nat.testBit_shiftRight,
    Nat.testBit_shiftLeft, hm1 i hi, hm2 i hi]
  by_cases hc : (i / 2) % 2 = 0
  · have hc' : ¬ (i / 2) % 2 = 1 := by omega
    have hidx : i + 2 - 4 * ((i / 2) % 2) = 2 + i := by omega
    simp [hc, hc', hidx]
    congr 1
    omega
  · have hc1 : (i / 2) % 2 = 1 := by omega
    have h2le : 2 ≤ i := by omega
    have hidx : i + 2 - 4 * ((i / 2) % 2) = i - 2 := by omega
    simp [hc, hc1, hidx, h2le]

/-- The second swap stage exchanges adjacent 4-bit groups. -/
theorem stageSwap4 (x i : Nat) (hi : i < 64) :
    (((x >>> 4) &&& 0x0F0F0F0F0F0F0F0F) ||| ((x <<< 4) &&& 0xF0F0F0F0F0F0F0F0)).testBit i
      = x.testBit (i + 4 - 8 * ((i / 4) % 2)) := by
  have hm1 : ∀ j, j < 64 → (0x0F0F0F0F0F0F0F0F : Nat).testBit j = decide ((j / 4) % 2 = 0) := by decide
  have hm2 : ∀ j, j < 64 → (0xF0F0F0F0F0F0F0F0 : Nat).testBit j = decide ((j / 4) % 2 = 1) := by decide
  rw [Nat.testBit_or, Nat.testBit_and, Nat.testBit_and, Nat.testBit_shiftRight,
    Nat.testBit_shiftLeft, hm1 i hi, hm2 i hi]
  by_cases hc : (i / 4) % 2 = 0
  · have hc' : ¬ (i / 4) % 2 = 1 := by omega
    have hidx : i + 4 - 8 * ((i / 4) % 2) = 4 + i := by omega
    simp [hc, hc', hidx]
    congr 1
    omega
  · have hc1 : (i / 4) % 2 = 1 := by omega
    have h4le : 4 ≤ i := by omega
    have hidx : i + 4 - 8 * ((i / 4) % 2) = i - 4 := by omega
    simp [hc, hc1, hidx, h4le]

/-- The third swap stage exchanges adjacent bytes. -/
theorem stageSwap8 (x i : Nat) (hi : i < 64) :
    (((x >>> 8) &&& 0x00FF00FF00FF00FF) ||| ((x <<< 8) &&& 0xFF00FF00FF00FF00)).testBit i
      = x.testBit (i + 8 - 16 * ((i / 8) % 2)) := by
  have hm1 : ∀ j, j < 64 → (0x00FF00FF00FF00FF : Nat).testBit j = decide ((j / 8) % 2 = 0) := by decide
  have hm2 : ∀ j, j < 64 → (0xFF00FF00FF00FF00 : Nat).testBit j = decide ((j / 8) % 2 = 1) := by decide
  rw [Nat.testBit_or, Nat.testBit_and, Nat.testBit_and, Nat.testBit_shiftRight,
    Nat.testBit_shiftLeft, hm1 i hi, hm2 i hi]
  by_cases hc : (i / 8) % 2 = 0
  · have hc' : ¬ (i / 8) % 2 = 1 := by omega
    have hidx : i + 8 - 16 * ((i / 8) % 2) = 8 + i := by omega
    simp [hc, hc', hidx]
    congr 1
    omega
  · have hc1 : (i / 8) % 2 = 1 := by omega
    have h8le : 8 ≤ i := by omega
    have hidx : i + 8 - 16 * ((i / 8) % 2) = i - 8 := by omega
    simp [hc, hc1, hidx, h8le]

/-- The fourth swap stage exchanges adjacent 16-bit halves of each
32-bit word. -/
theorem stageSwap16 (x i : Nat) (hi : i < 64) :
    (((x >>> 16) &&& 0x0000FFFF0000FFFF) ||| ((x <<< 16) &&& 0xFFFF0000FFFF0000)).testBit i
      = x.testBit (i + 16 - 32 * ((i / 16) % 2)) := by
  have hm1 : ∀ j, j < 64 → (0x0000FFFF0000FFFF : Nat).testBit j = decide ((j / 16) % 2 = 0) := by decide
  have hm2 : ∀ j, j < 64 → (0xFFFF0000FFFF0000 : Nat).testBit j = decide ((j / 16) % 2 = 1) := by decide
  rw [Nat.testBit_or, Nat.testBit_and, Nat.testBit_and, Nat.testBit_shiftRight,
    Nat.testBit_shiftLeft, hm1 i hi, hm2 i hi]
  by_cases hc : (i / 16) % 2 = 0
  · have hc' : ¬ (i / 16) % 2 = 1 := by omega
    have hidx : i + 16 - 32 * ((i / 16) % 2) = 16 + i := by omega
    simp [hc, hc', hidx]
    congr 1
    omega
  · have hc1 : (i / 16) % 2 = 1 := by omega
    have h16le : 16 ≤ i := by omega
    have hidx : i + 16 - 32 * ((i / 16) % 2) = i - 16 := by omega
    simp [hc, hc1, hidx, h16le]

/-- The fifth stage (the wrapping rotation by 32) exchanges the two
32-bit halves. -/
theorem stageSwap32 (y i : Nat) (hy : y < 2 ^ 64) (hi : i < 64) :
    (((y >>> 32) ||| (y <<< 32)) % U64_SIZE).testBit i
      = y.testBit (i + 32 - 64 * ((i / 32) % 2)) := by
  have hU : U64_SIZE = 2 ^ 64 := by norm_num [U64_SIZE]
  rw [hU, Nat.testBit_mod_two_pow, Nat.testBit_or, Nat.testBit_shiftRight, Nat.testBit_shiftLeft]
  by_cases hc : i < 32
  · have h0 : (i / 32) % 2 = 0 := by omega
    have hge : ¬ (32 ≤ i) := by omega
    have hidx : i + 32 - 64 * ((i / 32) % 2) = 32 + i := by omega
    simp [hi, hge, hidx]
  · have h1 : (i / 32) % 2 = 1 := by omega
    have hidx : i + 32 - 64 * ((i / 32) % 2) = i - 32 := by omega
    have hhi : y.testBit (32 + i) = false :=
      Nat.testBit_lt_two_pow (lt_of_lt_of_le hy (Nat.pow_le_pow_right (by norm_num) (by omega)))
    have hge : 32 ≤ i := by omega
    simp [hi, hidx, hhi, hge]

/-- Bit-level characterization of `reverse_complement`: bit i of the
result is the complement of input bit `n*2 - 2 + 2*(i%2) - i` (the
pair-reversed position) for i below the k-mer width, and 0 above it. -/
theorem reverse_complement_testBit (x n : Nat)
    (hn1 : 1 ≤ n) (hn2 : n ≤ 31) (i : Nat) :
    (reverse_complement x n).testBit i =
      (decide (i < n * 2) && !(x.testBit (n * 2 - 2 + 2 * (i % 2) - i))) := by
  simp only [reverse_complement]
  by_cases hin : i < n * 2
  · have hj : 64 - n * 2 + i < 64 := by omega
    rw [Nat.testBit_and, Nat.testBit_shiftRight, Nat.testBit_xor]
    rw [stageSwap32 _ _ (Nat.or_lt_two_pow (Nat.and_lt_two_pow _ (by norm_num)) (Nat.and_lt_two_pow _ (by norm_num))) hj]
    set j0 := 64 - n * 2 + i with hj0
    set j1 := j0 + 32 - 64 * (j0 / 32 % 2) with hj1
    have hb1 : j1 < 64 := by rw [hj1]; omega
    rw [stageSwap16 _ _ hb1]
    set j2 := j1 + 16 - 32 * (j1 / 16 % 2) with hj2
    have hb2 : j2 < 64 := by rw [hj2]; omega
    rw [stageSwap8 _ _ hb2]
    set j3 := j2 + 8 - 16 * (j2 / 8 % 2) with hj3
    have hb3 : j3 < 64 := by rw [hj3]; omega
    rw [stageSwap4 _ _ hb3]
    set j4 := j3 + 4 - 8 * (j3 / 4 % 2) with hj4
    have hb4 : j4 < 64 := by rw [hj4]; omega
    rw [stageSwap2 _ _ hb4]
    have hM : (U64_SIZE - 1 : Nat).testBit j0 = true := by
      have hball : ∀ j, j < 64 → (U64_SIZE - 1 : Nat).testBit j = true := by decide
      exact hball _ hj
    rw [hM]
    have key : ∀ j, j < 64 →
        (let a := j + 32 - 64 * (j / 32 % 2);
         let b := a + 16 - 32 * (a / 16 % 2);
         let c := b + 8 - 16 * (b / 8 % 2);
         let d := c + 4 - 8 * (c / 4 % 2);
         d + 2 - 4 * (d / 2 % 2)) = 62 + 2 * (j % 2) - j := by decide
    have h5 := key j0 hj
    simp only [] at h5
    have hIDX : j4 + 2 - 4 * (j4 / 2 % 2) = n * 2 - 2 + 2 * (i % 2) - i := by
      rw [hj4, hj3, hj2, hj1, h5]
      clear hb1 hb2 hb3 hb4 hj1 hj2 hj3 hj4 h5 hM key hin
      clear j4 j3 j2 j1
      rw [hj0]
      omega
    rw [hIDX, Nat.one_shiftLeft, Nat.testBit_two_pow_sub_one]
    simp [hin]
  · rw [Nat.testBit_and, Nat.one_shiftLeft, Nat.testBit_two_pow_sub_one]
    simp [hin]

/-- `reverse_complement` output is masked to the k-mer width. -/
theorem reverse_complement_lt (y n : Nat) : reverse_complement y n < 2 ^ (n * 2) := by
  have hle : reverse_complement y n ≤ (1 <<< (n * 2)) - 1 := by
    simp only [reverse_complement]
    exact Nat.and_le_right
  rw [Nat.one_shiftLeft] at hle
  have hpos : 0 < 2 ^ (n * 2) := Nat.pos_pow_of_pos _ (by norm_num)
  omega

/-- Claim C9: `reverse_complement` is an involution on in-range k-mers:
for 1 ≤ n ≤ 31 and x < 4^n, applying it twice at width n returns x. -/
theorem c9_reverse_complement_involution (n x : Nat)
    (hn1 : 1 ≤ n) (hn2 : n ≤ 31) (hx : x < 4 ^ n) :
    reverse_complement (reverse_complement x n) n = x := by
  have h4n : (4 : Nat) ^ n = 2 ^ (n * 2) := by
    rw [Nat.mul_comm, Nat.pow_mul]
  apply Nat.eq_of_testBit_eq
  intro i
  by_cases hi : i < n * 2
  · rw [reverse_complement_testBit _ n hn1 hn2 i, reverse_complement_testBit x n hn1 hn2 _]
    have hslt : n * 2 - 2 + 2 * (i % 2) - i < n * 2 := by omega
    have hss : n * 2 - 2 + 2 * ((n * 2 - 2 + 2 * (i % 2) - i) % 2) - (n * 2 - 2 + 2 * (i % 2) - i) = i := by
      omega
    rw [hss]
    simp [hi, hslt]
  · have h1 : (reverse_complement (reverse_complement x n) n).testBit i = false := by
      apply Nat.testBit_lt_two_pow
      exact lt_of_lt_of_le (reverse_complement_lt _ n)
        (Nat.pow_le_pow_right (by norm_num) (by omega))
    have h2 : x.testBit i = false := by
      apply Nat.testBit_lt_two_pow
      exact lt_of_lt_of_le (h4n ▸ hx) (Nat.pow_le_pow_right (by norm_num) (by omega))
    rw [h1, h2]

/-- Witness for C9 at n = 3, x = 5. -/
theorem c9_witness :
    1 ≤ 3 ∧ 3 ≤ 31 ∧ 5 < 4 ^ 3 ∧ reverse_complement (reverse_complement 5 3) 3 = 5 :=
  ⟨by decide, by decide, by decide,
    c9_reverse_complement_involution 3 5 (by decide) (by decide) (by decide)⟩

theorem cursorPersist_refl (c : Cursor) : cursorPersist c c := ⟨rfl, rfl, rfl, rfl⟩

theorem cursorPersist_trans {a b c : Cursor} (h1 : cursorPersist a b) (h2 : cursorPersist b c) :
    cursorPersist a c :=
  ⟨h2.1.trans h1.1, h2.2.1.trans h1.2.1, h2.2.2.1.trans h1.2.2.1, h2.2.2.2.trans h1.2.2.2⟩

theorem MinimizerWindow.next_capacity (w : MinimizerWindow) (c : Nat) :
    (w.next c).2.capacity = w.capacity := by
  unfold MinimizerWindow.next
  repeat' split
  all_goals rfl

theorem next_lmer_persist (c : Cursor) (v : Nat) :
    cursorPersist c (c.next_lmer v).2 ∧ (c.next_lmer v).2.pos = c.pos ∧
      (c.next_lmer v).2.window = c.window := by
  simp only [Cursor.next_lmer]
  split <;> split <;> exact ⟨⟨rfl, rfl, rfl, rfl⟩, rfl, rfl⟩

theorem slideAux_persist (seq : List Nat) :
    ∀ fuel (c : Cursor),
      (∀ c', Cursor.slideAux seq fuel c = SlideResult.done c' → cursorPersist c c') ∧
      (∀ v c', Cursor.slideAux seq fuel c = SlideResult.lmer v c' → cursorPersist c c') := by
  intro fuel
  induction fuel with
  | zero =>
    intro c
    refine ⟨fun c' h => ?_, fun v c' h => ?_⟩
    · cases h
      exact cursorPersist_refl c
    · exact SlideResult.noConfusion h
  | succ f ih =>
    intro c
    have step : ∀ (r : SlideResult) (c2 : Cursor) (code : Option Nat),
        (match code with
          | some cd =>
            match Cursor.next_lmer c2 cd with
            | (some lm, c') => SlideResult.lmer lm c'
            | (none, c') => Cursor.slideAux seq f c'
          | none => Cursor.slideAux seq f c2.clear) = r →
        cursorPersist c c2 →
        (∀ c', r = SlideResult.done c' → cursorPersist c c') ∧
        (∀ v c', r = SlideResult.lmer v c' → cursorPersist c c') := by
      intro r c2 code hmatch hpc
      cases code with
      | some cd =>
        simp only [] at hmatch
        cases hnx : Cursor.next_lmer c2 cd with
        | mk ro c3 =>
          have hp3 : cursorPersist c c3 := by
            have hp := (next_lmer_persist c2 cd).1
            rw [hnx] at hp
            exact cursorPersist_trans hpc hp
          rw [hnx] at hmatch
          cases ro with
          | some lm =>
            simp only [] at hmatch
            subst hmatch
            refine ⟨fun c' h => SlideResult.noConfusion h, fun v c' h => ?_⟩
            cases h
            exact hp3
          | none =>
            simp only [] at hmatch
            subst hmatch
            exact ⟨fun c' h => cursorPersist_trans hp3 ((ih c3).1 c' h),
                   fun v c' h => cursorPersist_trans hp3 ((ih c3).2 v c' h)⟩
      | none =>
        simp only [] at hmatch
        subst hmatch
        have hpcl : cursorPersist c c2.clear :=
          cursorPersist_trans hpc ⟨rfl, rfl, rfl, rfl⟩
        exact ⟨fun c' h => cursorPersist_trans hpcl ((ih c2.clear).1 c' h),
               fun v c' h => cursorPersist_trans hpcl ((ih c2.clear).2 v c' h)⟩
    have main : (∀ c', Cursor.slideAux seq (f + 1) c = SlideResult.done c' → cursorPersist c c') ∧
        (∀ v c', Cursor.slideAux seq (f + 1) c = SlideResult.lmer v c' → cursorPersist c c') := by
      by_cases hpos : c.pos < c.endp
      · cases hget : seq.get? c.pos with
        | none =>
          have hh : Cursor.slideAux seq (f + 1) c = SlideResult.panic := by
            simp only [Cursor.slideAux, hpos, if_true, hget]
          rw [hh]
          exact ⟨fun c' h => SlideResult.noConfusion h, fun v c' h => SlideResult.noConfusion h⟩
        | some ch =>
          by_cases hnl : ch = 10 ∨ ch = 13
          · cases hget2 : seq.get? (c.pos + 1) with
            | none =>
              have hh : Cursor.slideAux seq (f + 1) c = SlideResult.panic := by
                simp only [Cursor.slideAux, hpos, if_true, hget, hnl, hget2]
              rw [hh]
              exact ⟨fun c' h => SlideResult.noConfusion h, fun v c' h => SlideResult.noConfusion h⟩
            | some ch2 =>
              have hh : Cursor.slideAux seq (f + 1) c =
                  (match char_to_value ch2 with
                    | some cd =>
                      match Cursor.next_lmer { c with pos := c.pos + 2 } cd with
                      | (some lm, c') => SlideResult.lmer lm c'
                      | (none, c') => Cursor.slideAux seq f c'
                    | none => Cursor.slideAux seq f (Cursor.clear { c with pos := c.pos + 2 })) := by
                simp only [Cursor.slideAux, hpos, if_true, hget, hnl, hget2]
              rw [hh]
              exact step _ { c with pos := c.pos + 2 } (char_to_value ch2) rfl ⟨rfl, rfl, rfl, rfl⟩
          · have hh : Cursor.slideAux seq (f + 1) c =
                (match char_to_value ch with
                  | some cd =>
                    match Cursor.next_lmer { c with pos := c.pos + 1 } cd with
                    | (some lm, c') => SlideResult.lmer lm c'
                    | (none, c') => Cursor.slideAux seq f c'
                  | none => Cursor.slideAux seq f (Cursor.clear { c with pos := c.pos + 1 })) := by
              simp only [Cursor.slideAux, hpos, if_true, hget, hnl, if_false]
            rw [hh]
            exact step _ { c with pos := c.pos + 1 } (char_to_value ch) rfl ⟨rfl, rfl, rfl, rfl⟩
      · have hh : Cursor.slideAux seq (f + 1) c = SlideResult.done c := by
          simp only [Cursor.slideAux, hpos, if_false]
        rw [hh]
        refine ⟨fun c' h => ?_, fun v c' h => SlideResult.noConfusion h⟩
        cases h
        exact cursorPersist_refl c
    exact main

theorem next_window_state (s : MinimizerScanner) (seq : List Nat) (r : Option Nat)
    (s' : MinimizerScanner) (h : s.next_window seq = some (r, s')) :
    s'.meros = s.meros ∧ s'.last_minimizer = s.last_minimizer ∧
      cursorPersist s.cursor s'.cursor := by
  unfold MinimizerScanner.next_window at h
  cases hs : s.cursor.slide seq with
  | panic => rw [hs] at h; exact Option.noConfusion h
  | done c =>
    rw [hs] at h
    simp only [] at h
    cases h
    have hp := (slideAux_persist seq (s.cursor.endp - s.cursor.pos) s.cursor).1 c hs
    exact ⟨rfl, rfl, hp⟩
  | lmer v c =>
    rw [hs] at h
    simp only [] at h
    cases h
    have hp := (slideAux_persist seq (s.cursor.endp - s.cursor.pos) s.cursor).2 v c hs
    refine ⟨rfl, rfl, ?_⟩
    refine cursorPersist_trans hp ⟨rfl, rfl, ?_, rfl⟩
    exact MinimizerWindow.next_capacity c.window (s.to_candidate_lmer v)

theorem nmAux_emit (seq : List Nat) :
    ∀ fuel (s : MinimizerScanner) (m : Nat) (s' : MinimizerScanner),
      MinimizerScanner.nmAux seq fuel s = some (some m, s') →
      m = s'.last_minimizer ^^^ s'.meros.toggle_mask ∧ s'.meros = s.meros ∧
        cursorPersist s.cursor s'.cursor := by
  intro fuel
  induction fuel with
  | zero =>
    intro s m s' h
    simp only [MinimizerScanner.nmAux] at h
    cases h
  | succ f ih =>
    intro s m s' h
    simp only [MinimizerScanner.nmAux] at h
    split at h
    · cases hw : s.next_window seq with
      | none => rw [hw] at h; exact Option.noConfusion h
      | some p =>
        obtain ⟨ro, s1⟩ := p
        rw [hw] at h
        have hst := next_window_state s seq ro s1 hw
        cases ro with
        | some minz =>
          simp only [] at h
          split at h
          · simp only [Option.some.injEq, Prod.mk.injEq] at h
            obtain ⟨hm, hs2⟩ := h
            subst hs2
            exact ⟨by rw [← hm], hst.1, hst.2.2⟩
          · have := ih s1 m s' h
            exact ⟨this.1, this.2.1.trans hst.1, cursorPersist_trans hst.2.2 this.2.2⟩
        | none =>
          simp only [] at h
          have := ih s1 m s' h
          exact ⟨this.1, this.2.1.trans hst.1, cursorPersist_trans hst.2.2 this.2.2⟩
    · cases h

theorem nmAux_emit_ne (seq : List Nat) :
    ∀ fuel (s : MinimizerScanner) (m : Nat) (s' : MinimizerScanner),
      MinimizerScanner.nmAux seq fuel s = some (some m, s') →
      m ≠ s.last_minimizer ^^^ s.meros.toggle_mask := by
  intro fuel
  induction fuel with
  | zero =>
    intro s m s' h
    simp only [MinimizerScanner.nmAux] at h
    cases h
  | succ f ih =>
    intro s m s' h
    simp only [MinimizerScanner.nmAux] at h
    split at h
    · cases hw : s.next_window seq with
      | none => rw [hw] at h; exact Option.noConfusion h
      | some p =>
        obtain ⟨ro, s1⟩ := p
        rw [hw] at h
        have hst := next_window_state s seq ro s1 hw
        cases ro with
        | some minz =>
          simp only [] at h
          split at h
          case isTrue hne =>
            simp only [Option.some.injEq, Prod.mk.injEq] at h
            obtain ⟨hm, hs2⟩ := h
            intro he
            apply hne
            rw [hst.2.1]
            have hc : minz ^^^ s1.meros.toggle_mask = s.last_minimizer ^^^ s.meros.toggle_mask := by
              rw [hm, he]
            rw [hst.1] at hc
            have := congrArg (fun z => z ^^^ s.meros.toggle_mask) hc
            simpa [Nat.xor_assoc] using this
          case isFalse hne =>
            have := ih s1 m s' h
            rw [hst.1, hst.2.1] at this
            exact this
        | none =>
          simp only [] at h
          have := ih s1 m s' h
          rw [hst.1, hst.2.1] at this
          exact this
    · cases h

theorem emitAux_chain (seq : List Nat) :
    ∀ fuel (s : MinimizerScanner),
      List.Chain' (fun a b => a ≠ b) (MinimizerScanner.emitAux seq fuel s) := by
  intro fuel
  induction fuel with
  | zero => intro s; exact List.chain'_nil
  | succ f ih =>
    intro s
    simp only [MinimizerScanner.emitAux]
    cases hn : s.next_minimizer seq with
    | none => exact List.chain'_nil
    | some p =>
      obtain ⟨ro, s'⟩ := p
      cases ro with
      | none => exact List.chain'_nil
      | some m =>
        simp only []
        rw [List.chain'_cons']
        refine ⟨?_, ih s'⟩
        intro b hb
        cases f with
        | zero => simp [MinimizerScanner.emitAux] at hb
        | succ f2 =>
          simp only [MinimizerScanner.emitAux] at hb
          cases hn2 : s'.next_minimizer seq with
          | none => rw [hn2] at hb; simp at hb
          | some p2 =>
            obtain ⟨ro2, s''⟩ := p2
            cases ro2 with
            | none => rw [hn2] at hb; simp at hb
            | some m2 =>
              rw [hn2] at hb
              simp only [List.head?_cons, Option.mem_def, Option.some.injEq] at hb
              subst hb
              unfold MinimizerScanner.next_minimizer at hn hn2
              have h1 := nmAux_emit seq _ s m s' hn
              have h2 := nmAux_emit_ne seq _ s' m2 s'' hn2
              intro he
              exact h2 (he ▸ h1.1)

/-- Claim C10: over any bound slice and any scanner state, the values
returned by iterating `next_minimizer` never repeat consecutively: the
window output is compared against `last_minimizer` before being returned,
and the XOR with the toggle mask is injective. -/
theorem c10_no_consecutive_duplicates (s : MinimizerScanner) (seq : List Nat) :
    List.Chain' (fun a b => a ≠ b) (s.emissions seq) :=
  emitAux_chain seq (seq.length + 1) s

theorem nmAux_none (seq : List Nat) :
    ∀ fuel (s s' : MinimizerScanner),
      MinimizerScanner.nmAux seq fuel s = some (none, s') →
      s'.meros = s.meros ∧ s'.last_minimizer = s.last_minimizer ∧
      s'.cursor.inner = [] ∧ s'.cursor.value = 0 ∧
      s'.cursor.window.queue = [] ∧ s'.cursor.window.count = 0 ∧
      cursorPersist s.cursor s'.cursor := by
  intro fuel
  induction fuel with
  | zero =>
    intro s s' h
    simp only [MinimizerScanner.nmAux, Option.some.injEq, Prod.mk.injEq] at h
    obtain ⟨-, hs2⟩ := h
    subst hs2
    exact ⟨rfl, rfl, rfl, rfl, rfl, rfl, rfl, rfl, rfl, rfl⟩
  | succ f ih =>
    intro s s' h
    simp only [MinimizerScanner.nmAux] at h
    split at h
    · cases hw : s.next_window seq with
      | none => rw [hw] at h; exact Option.noConfusion h
      | some p =>
        obtain ⟨ro, s1⟩ := p
        rw [hw] at h
        have hst := next_window_state s seq ro s1 hw
        cases ro with
        | some minz =>
          simp only [] at h
          split at h
          · simp at h
          · have hr := ih s1 s' h
            exact ⟨hr.1.trans hst.1, hr.2.1.trans hst.2.1, hr.2.2.1, hr.2.2.2.1,
              hr.2.2.2.2.1, hr.2.2.2.2.2.1, cursorPersist_trans hst.2.2 hr.2.2.2.2.2.2⟩
        | none =>
          simp only [] at h
          have hr := ih s1 s' h
          exact ⟨hr.1.trans hst.1, hr.2.1.trans hst.2.1, hr.2.2.1, hr.2.2.2.1,
            hr.2.2.2.2.1, hr.2.2.2.2.2.1, cursorPersist_trans hst.2.2 hr.2.2.2.2.2.2⟩
    · simp only [Option.some.injEq, Prod.mk.injEq] at h
      obtain ⟨-, hs2⟩ := h
      subst hs2
      exact ⟨rfl, rfl, rfl, rfl, rfl, rfl, rfl, rfl, rfl, rfl⟩

/-- Claim C7 (amended): after `next_minimizer` returns `None` at the end
of a bound slice, the cursor state is fully cleared but `last_minimizer`
is retained; rebinding the scanner therefore yields exactly the state —
hence the stream — of a freshly constructed scanner with the same Meros
whose `last_minimizer` is set to the retained value. -/
theorem c7_cleared_state (s : MinimizerScanner) (seq seq2 : List Nat) (s' : MinimizerScanner)
    (hcap : s.cursor.capacity = s.meros.l_mer)
    (hmask : s.cursor.mask = s.meros.mask)
    (hwcap : s.cursor.window.capacity = s.meros.window_size)
    (h : s.next_minimizer seq = some (none, s')) :
    s'.set_seq_end seq2 =
      { (MinimizerScanner.new s.meros).set_seq_end seq2 with last_minimizer := s'.last_minimizer } ∧
    (s'.set_seq_end seq2).emissions seq2 =
      MinimizerScanner.emissions
        { (MinimizerScanner.new s.meros).set_seq_end seq2 with last_minimizer := s'.last_minimizer }
        seq2 := by
  unfold MinimizerScanner.next_minimizer at h
  have hr := nmAux_none seq _ s s' h
  obtain ⟨hme, hlast, hinner, hvalue, hwq, hwc, hpc⟩ := hr
  have hstate : s'.set_seq_end seq2 =
      { (MinimizerScanner.new s.meros).set_seq_end seq2 with last_minimizer := s'.last_minimizer } := by
    obtain ⟨me', cur', lm'⟩ := s'
    obtain ⟨cp, cep, cin, ccap, cval, cmask, cwin⟩ := cur'
    obtain ⟨wq, wcap, wcnt⟩ := cwin
    simp only at hme hlast hinner hvalue hwq hwc
    obtain ⟨hpcap, hpmask, hpwcap, hpendp⟩ := hpc
    simp only at hpcap hpmask hpwcap hpendp
    subst hme hinner hvalue hwq hwc
    simp [MinimizerScanner.set_seq_end, MinimizerScanner.new, Cursor.new, MinimizerWindow.new,
      hpcap, hpmask, hpwcap, hcap, hmask, hwcap]
  exact ⟨hstate, by rw [hstate]⟩

/-- Witness for C7 (amended): the concrete scanner that has just emitted
the single minimizer of "AAAAAAAAAA" and returned `None` satisfies the
hypotheses, and rebinding it equals the fresh scanner carrying over its
`last_minimizer`. -/
theorem c7_cleared_state_witness :
    scanA1.cursor.capacity = scanA1.meros.l_mer ∧
    scanA1.cursor.mask = scanA1.meros.mask ∧
    scanA1.cursor.window.capacity = scanA1.meros.window_size ∧
    scanA1.next_minimizer seqOfA = some (none, scanA2) ∧
    scanA2.set_seq_end seqOfA =
      { (MinimizerScanner.new scanA1.meros).set_seq_end seqOfA with
          last_minimizer := scanA2.last_minimizer } :=
  ⟨by decide, by decide, by decide, by decide,
    (c7_cleared_state scanA1 seqOfA seqOfA scanA2 (by decide) (by decide)
      (by decide) (by decide)).1⟩

theorem winInv_init (cap : Nat) : WinInv cap [] (MinimizerWindow.new cap) := by
  refine ⟨rfl, rfl, List.Pairwise.nil, ?_, ?_⟩
  · intro d hd
    simp [MinimizerWindow.new] at hd
  · intro j hj
    simp at hj

theorem popGreaterBack_sorted (c : Nat) (q : List MinimizerData)
    (hs : List.Pairwise (fun d e => d.candidate_lmer ≤ e.candidate_lmer) q) :
    popGreaterBack c q = q.takeWhile (fun d => d.candidate_lmer ≤ c) := by
  induction q with
  | nil => rfl
  | cons d rest ih =>
    have hs' := List.pairwise_cons.mp hs
    unfold popGreaterBack
    rw [List.reverse_cons, List.dropWhile_append]
    by_cases hd : d.candidate_lmer ≤ c
    · have hpd : (decide (c < d.candidate_lmer)) = false := by
        simp [Nat.not_lt.mpr hd]
      by_cases hemp : (rest.reverse.dropWhile (fun e => decide (c < e.candidate_lmer))).isEmpty
      · rw [if_pos hemp]
        have h0 : popGreaterBack c rest = [] := by
          unfold popGreaterBack
          rw [List.isEmpty_iff] at hemp
          rw [hemp]
          rfl
        rw [ih hs'.2] at h0
        simp [List.takeWhile_cons, hd, List.dropWhile_cons, hpd, h0]
      · rw [if_neg hemp]
        rw [List.reverse_append]
        simp only [List.takeWhile_cons, hd, decide_True]
        rw [← ih hs'.2]
        unfold popGreaterBack
        simp [hpd]
    · have hpd : (decide (c < d.candidate_lmer)) = true := by
        simp [Nat.lt_of_not_le hd]
      have hall : rest.reverse.dropWhile (fun e => decide (c < e.candidate_lmer)) = [] := by
        rw [List.dropWhile_eq_nil_iff]
        intro e he
        rw [List.mem_reverse] at he
        have := hs'.1 e he
        simp
        omega
      rw [if_pos (by rw [hall]; rfl)]
      simp only [List.takeWhile_cons, hd]
      simp [List.dropWhile_cons, hpd, hd]

theorem mem_takeWhile_sorted (c : Nat) (q : List MinimizerData)
    (hs : List.Pairwise (fun d e => d.candidate_lmer ≤ e.candidate_lmer) q) (d : MinimizerData) :
    d ∈ q.takeWhile (fun e => e.candidate_lmer ≤ c) ↔ d ∈ q ∧ d.candidate_lmer ≤ c := by
  induction q with
  | nil => simp
  | cons e rest ih =>
    have hs' := List.pairwise_cons.mp hs
    by_cases he : e.candidate_lmer ≤ c
    · rw [List.takeWhile_cons_of_pos (by simpa using he)]
      simp only [List.mem_cons, ih hs'.2]
      constructor
      · rintro (rfl | ⟨hm, hv⟩)
        · exact ⟨Or.inl rfl, he⟩
        · exact ⟨Or.inr hm, hv⟩
      · rintro ⟨rfl | hm, hv⟩
        · exact Or.inl rfl
        · exact Or.inr ⟨hm, hv⟩
    · rw [List.takeWhile_cons_of_neg (by simpa using he)]
      simp only [List.not_mem_nil, false_iff]
      rintro ⟨hm, hv⟩
      rcases List.mem_cons.mp hm with rfl | hm2
      · exact he hv
      · exact he (le_trans (hs'.1 d hm2) hv)

theorem mem_popGreaterBack (c : Nat) (q : List MinimizerData)
    (hs : List.Pairwise (fun d e => d.candidate_lmer ≤ e.candidate_lmer) q) (d : MinimizerData) :
    d ∈ popGreaterBack c q ↔ d ∈ q ∧ d.candidate_lmer ≤ c := by
  rw [popGreaterBack_sorted c q hs]
  exact mem_takeWhile_sorted c q hs d

theorem next_eq_lt (w : MinimizerWindow) (c : Nat) (h1 : ¬ w.capacity = 1)
    (h2 : w.count < w.capacity) :
    w.next c = (none,
      { w with queue := popGreaterBack c w.queue ++ [({ pos := w.count, candidate_lmer := c } : MinimizerData)],
               count := w.count + 1 }) := by
  unfold MinimizerWindow.next
  rw [if_neg h1]
  simp only [if_pos h2]

theorem next_eq_ge (w : MinimizerWindow) (c : Nat) (front : MinimizerData)
    (h1 : ¬ w.capacity = 1) (h2 : ¬ w.count < w.capacity)
    (hf : (popGreaterBack c w.queue ++ [({ pos := w.count, candidate_lmer := c } : MinimizerData)]).head? = some front) :
    w.next c =
      (((if front.pos < w.count - w.capacity
          then (popGreaterBack c w.queue ++ [({ pos := w.count, candidate_lmer := c } : MinimizerData)]).tail
          else (popGreaterBack c w.queue ++ [({ pos := w.count, candidate_lmer := c } : MinimizerData)])).head?.map
            (fun d => d.candidate_lmer)),
        { w with
            queue := if front.pos < w.count - w.capacity
              then (popGreaterBack c w.queue ++ [({ pos := w.count, candidate_lmer := c } : MinimizerData)]).tail
              else (popGreaterBack c w.queue ++ [({ pos := w.count, candidate_lmer := c } : MinimizerData)]),
            count := w.count + 1 }) := by
  unfold MinimizerWindow.next
  rw [if_neg h1]
  simp only [if_neg h2, hf]

theorem front_min (cap : Nat) (ys : List Nat) (w : MinimizerWindow)
    (hinv : WinInv cap ys w) (front : MinimizerData) (hh : w.queue.head? = some front) :
    ∀ j, j < ys.length → ys.length ≤ j + cap + 1 →
      front.candidate_lmer ≤ ys.getD j 0 := by
  obtain ⟨-, -, hpair, hmem, hwin⟩ := hinv
  have hfront_le : ∀ d ∈ w.queue, front.candidate_lmer ≤ d.candidate_lmer := by
    have hq : w.queue = front :: w.queue.tail := (List.cons_head?_tail hh).symm
    intro d hd
    rw [hq] at hd hpair
    rcases List.mem_cons.mp hd with rfl | hd2
    · exact le_refl _
    · exact ((List.pairwise_cons.mp hpair).1 d hd2).2
  have main : ∀ m j, ys.length - j ≤ m → j < ys.length → ys.length ≤ j + cap + 1 →
      front.candidate_lmer ≤ ys.getD j 0 := by
    intro m
    induction m with
    | zero =>
      intro j h0 h1 h2
      omega
    | succ m ih =>
      intro j h0 h1 h2
      by_cases hj : ∃ d ∈ w.queue, d.pos = j
      · obtain ⟨d, hd, rfl⟩ := hj
        rw [(hmem d hd).2.2]
        exact hfront_le d hd
      · have hnall : ¬ (∀ j', j < j' → j' < ys.length → ys.getD j 0 ≤ ys.getD j' 0) :=
          fun hall => hj ((hwin j h1 h2).mpr hall)
        push_neg at hnall
        obtain ⟨j', hjj', hj'lt, hlt⟩ := hnall
        have hrec := ih j' (by omega) hj'lt (by omega)
        omega
  intro j h1 h2
  exact main (ys.length - j) j (le_refl _) h1 h2

theorem min?_drop_eq (ys : List Nat) (k v : Nat)
    (hmemv : ∃ j, k ≤ j ∧ j < ys.length ∧ ys.getD j 0 = v)
    (hlb : ∀ j, k ≤ j → j < ys.length → v ≤ ys.getD j 0) :
    (ys.drop k).min? = some v := by
  rw [List.min?_eq_some_iff (fun a => Nat.le_refl a) (fun a b => by omega)
    (fun a b c => Nat.le_min)]
  constructor
  · obtain ⟨j, hkj, hjlt, hval⟩ := hmemv
    have hget : (ys.drop k).get? (j - k) = some v := by
      rw [List.get?_drop]
      have hj : k + (j - k) = j := by omega
      rw [hj]
      rw [List.getD_eq_get?] at hval
      cases hg : ys.get? j with
      | none =>
        rw [List.get?_eq_none] at hg
        omega
      | some a =>
        rw [hg] at hval
        simp at hval
        rw [hval]
    exact List.get?_mem hget
  · intro b hb
    obtain ⟨idx, hidx⟩ := List.mem_iff_get?.mp hb
    rw [List.get?_drop] at hidx
    have hlt : k + idx < ys.length := by
      by_contra hge
      rw [List.get?_eq_none.mpr (by omega)] at hidx
      cases hidx
    have hval : ys.getD (k + idx) 0 = b := by
      rw [List.getD_eq_get?, hidx]
      rfl
    rw [← hval]
    exact hlb (k + idx) (by omega) hlt

theorem output_min (cap : Nat) (ys : List Nat) (w' : MinimizerWindow)
    (hinv : WinInv cap ys w') (front : MinimizerData) (hh : w'.queue.head? = some front) :
    (ys.drop (ys.length - 1 - cap)).min? = some front.candidate_lmer := by
  apply min?_drop_eq
  · have hfm : front ∈ w'.queue := by
      rw [(List.cons_head?_tail hh).symm]
      exact List.mem_cons_self _ _
    obtain ⟨hp1, hp2, hp3⟩ := hinv.2.2.2.1 front hfm
    exact ⟨front.pos, by omega, hp1, hp3⟩
  · intro j hk hj
    exact front_min cap ys w' hinv front hh j hj (by omega)

theorem window_step (cap : Nat) (hcap : 2 ≤ cap) (xs : List Nat) (w : MinimizerWindow) (c : Nat)
    (hinv : WinInv cap xs w) :
    WinInv cap (xs ++ [c]) (w.next c).2 ∧
    (w.next c).1 = (if xs.length < cap then none
      else ((xs ++ [c]).drop (xs.length - cap)).min?) := by
  obtain ⟨hwcap, hwcount, hpair, hmem, hwin⟩ := hinv
  have hvs : List.Pairwise (fun d e => d.candidate_lmer ≤ e.candidate_lmer) w.queue :=
    hpair.imp (fun h => h.2)
  have h1 : ¬ w.capacity = 1 := by omega
  have hysg : ∀ j, j < xs.length → (xs ++ [c]).getD j 0 = xs.getD j 0 := by
    intro j hj
    rw [List.getD_append _ _ _ _ hj]
  have hysn : (xs ++ [c]).getD xs.length 0 = c := by
    rw [List.getD_eq_get?, List.get?_concat_length]
    rfl
  have hq1mem : ∀ d, d ∈ popGreaterBack c w.queue ↔ d ∈ w.queue ∧ d.candidate_lmer ≤ c :=
    mem_popGreaterBack c w.queue hvs
  have hq1pair : List.Pairwise (fun d e => d.pos < e.pos ∧ d.candidate_lmer ≤ e.candidate_lmer)
      (popGreaterBack c w.queue) := by
    rw [popGreaterBack_sorted c w.queue hvs]
    exact hpair.sublist (List.takeWhile_sublist _)
  have hq2mem : ∀ d, d ∈ popGreaterBack c w.queue ++ [({ pos := w.count, candidate_lmer := c } : MinimizerData)] ↔
      (d ∈ w.queue ∧ d.candidate_lmer ≤ c) ∨ d = { pos := w.count, candidate_lmer := c } := by
    intro d
    rw [List.mem_append, hq1mem d, List.mem_singleton]
  have hq2pair : List.Pairwise (fun d e => d.pos < e.pos ∧ d.candidate_lmer ≤ e.candidate_lmer)
      (popGreaterBack c w.queue ++ [({ pos := w.count, candidate_lmer := c } : MinimizerData)]) := by
    rw [List.pairwise_append]
    refine ⟨hq1pair, List.pairwise_singleton _ _, ?_⟩
    intro d hd e he
    rw [List.mem_singleton] at he
    subst he
    have hdq := (hq1mem d).mp hd
    refine ⟨?_, hdq.2⟩
    have h := (hmem d hdq.1).1
    show d.pos < w.count
    omega
  have hq2elem : ∀ d ∈ popGreaterBack c w.queue ++ [({ pos := w.count, candidate_lmer := c } : MinimizerData)],
      d.pos < xs.length + 1 ∧ xs.length ≤ d.pos + cap + 1 ∧ (xs ++ [c]).getD d.pos 0 = d.candidate_lmer := by
    intro d hd
    rcases (hq2mem d).mp hd with ⟨hdq, _⟩ | rfl
    · obtain ⟨hp1, hp2, hp3⟩ := hmem d hdq
      exact ⟨by omega, hp2, by rw [hysg d.pos hp1]; exact hp3⟩
    · refine ⟨by simp; omega, by simp; omega, ?_⟩
      simp only []
      rw [hwcount]
      exact hysn
  have hq2window : ∀ j, j < xs.length + 1 → xs.length ≤ j + cap + 1 →
      ((∃ d ∈ popGreaterBack c w.queue ++ [({ pos := w.count, candidate_lmer := c } : MinimizerData)], d.pos = j) ↔
        (∀ j', j < j' → j' < xs.length + 1 → (xs ++ [c]).getD j 0 ≤ (xs ++ [c]).getD j' 0)) := by
    intro j hj1 hj2
    by_cases hjn : j = xs.length
    · subst hjn
      constructor
      · intro _ j' hj' hj'2
        omega
      · intro _
        exact ⟨{ pos := w.count, candidate_lmer := c }, by simp [hq2mem], hwcount⟩
    · have hjlt : j < xs.length := by omega
      have hstep : (∃ d ∈ popGreaterBack c w.queue ++ [({ pos := w.count, candidate_lmer := c } : MinimizerData)], d.pos = j) ↔
          (∃ d ∈ w.queue, d.pos = j) ∧ xs.getD j 0 ≤ c := by
        constructor
        · rintro ⟨d, hd, rfl⟩
          rcases (hq2mem d).mp hd with ⟨hdq, hdv⟩ | rfl
          · have := (hmem d hdq).2.2
            exact ⟨⟨d, hdq, rfl⟩, by omega⟩
          · simp only [] at hjlt
            omega
        · rintro ⟨⟨d, hd, rfl⟩, hv⟩
          refine ⟨d, ?_, rfl⟩
          rw [hq2mem d]
          left
          refine ⟨hd, ?_⟩
          have := (hmem d hd).2.2
          omega
      rw [hstep, hwin j hjlt (by omega)]
      constructor
      · rintro ⟨hall, hc⟩ j' hj' hj'2
        rw [hysg j hjlt]
        by_cases hj'n : j' = xs.length
        · subst hj'n
          rw [hysn]
          exact hc
        · rw [hysg j' (by omega)]
          exact hall j' hj' (by omega)
      · intro hall
        constructor
        · intro j' hj' hj'2
          have := hall j' hj' (by omega)
          rw [hysg j hjlt, hysg j' (by omega)] at this
          exact this
        · have := hall xs.length hjlt (by omega)
          rw [hysg j hjlt, hysn] at this
          exact this
  by_cases hlt : w.count < w.capacity
  · rw [next_eq_lt w c h1 hlt]
    have hnlt : xs.length < cap := by omega
    constructor
    · refine ⟨hwcap, ?_, hq2pair, ?_, ?_⟩
      · show w.count + 1 = (xs ++ [c]).length
        simp [hwcount]
      · intro d hd
        obtain ⟨he1, he2, he3⟩ := hq2elem d hd
        refine ⟨by simpa using he1, ?_, he3⟩
        simp only [List.length_append, List.length_singleton]
        omega
      · intro j hj1 hj2
        simp only [List.length_append, List.length_singleton] at hj1 hj2 ⊢
        exact hq2window j hj1 (by omega)
    · show (none : Option Nat) = _
      rw [if_pos hnlt]
  · have hgecap : cap ≤ xs.length := by omega
    obtain ⟨front, hfront⟩ : ∃ f, (popGreaterBack c w.queue ++
        [({ pos := w.count, candidate_lmer := c } : MinimizerData)]).head? = some f := by
      cases popGreaterBack c w.queue with
      | nil => exact ⟨_, rfl⟩
      | cons a t => exact ⟨a, rfl⟩
    rw [next_eq_ge w c front h1 hlt hfront]
    set q2 : List MinimizerData := popGreaterBack c w.queue ++
        [({ pos := w.count, candidate_lmer := c } : MinimizerData)] with hq2def
    have hq2eq : q2 = front :: q2.tail := (List.cons_head?_tail hfront).symm
    have hfrontmem : front ∈ q2 := by
      rw [hq2eq]
      exact List.mem_cons_self _ _
    have hfrontfacts := hq2elem front hfrontmem
    have htailmem : ∀ d ∈ q2.tail,
        d ∈ q2 ∧ front.pos < d.pos ∧ front.candidate_lmer ≤ d.candidate_lmer := by
      intro d hd
      have hmq2 : d ∈ q2 := by
        rw [hq2eq]
        exact List.mem_cons_of_mem _ hd
      have hp := hq2pair
      rw [hq2eq] at hp
      have hr := (List.pairwise_cons.mp hp).1 d hd
      exact ⟨hmq2, hr.1, hr.2⟩
    by_cases hev : front.pos < w.count - w.capacity
    · rw [if_pos hev]
      have hnewmem : ({ pos := w.count, candidate_lmer := c } : MinimizerData) ∈ q2.tail := by
        have hmq2 : ({ pos := w.count, candidate_lmer := c } : MinimizerData) ∈ q2 :=
          (hq2mem _).mpr (Or.inr rfl)
        rw [hq2eq] at hmq2
        rcases List.mem_cons.mp hmq2 with heq | h
        · exfalso
          have hfp : front.pos = w.count := by rw [← heq]
          omega
        · exact h
      obtain ⟨front3, hfront3⟩ : ∃ f3, q2.tail.head? = some f3 := by
        cases hq : q2.tail with
        | nil => rw [hq] at hnewmem; exact absurd hnewmem (List.not_mem_nil _)
        | cons a t => exact ⟨a, rfl⟩
      have hInv : WinInv cap (xs ++ [c]) { w with queue := q2.tail, count := w.count + 1 } := by
        refine ⟨hwcap, ?_, ?_, ?_, ?_⟩
        · show w.count + 1 = (xs ++ [c]).length
          simp [hwcount]
        · have hp := hq2pair
          rw [hq2eq] at hp
          exact (List.pairwise_cons.mp hp).2
        · intro d hd
          obtain ⟨hdq2, hdpos, -⟩ := htailmem d hd
          obtain ⟨he1, he2, he3⟩ := hq2elem d hdq2
          refine ⟨by simpa using he1, ?_, he3⟩
          simp only [List.length_append, List.length_singleton]
          omega
        · intro j hj1 hj2
          simp only [List.length_append, List.length_singleton] at hj1 hj2 ⊢
          have hmemiff : (∃ d ∈ q2.tail, d.pos = j) ↔ (∃ d ∈ q2, d.pos = j) := by
            constructor
            · rintro ⟨d, hd, rfl⟩
              exact ⟨d, (htailmem d hd).1, rfl⟩
            · rintro ⟨d, hd, rfl⟩
              rw [hq2eq] at hd
              rcases List.mem_cons.mp hd with rfl | h
              · exfalso
                omega
              · exact ⟨d, h, rfl⟩
          rw [hmemiff]
          exact hq2window j hj1 (by omega)
      refine ⟨hInv, ?_⟩
      rw [hfront3, if_neg (by omega : ¬ xs.length < cap)]
      have hout := output_min cap (xs ++ [c]) _ hInv front3 hfront3
      simp only [List.length_append, List.length_singleton] at hout
      have hk : xs.length + 1 - 1 - cap = xs.length - cap := by omega
      rw [hk] at hout
      rw [hout]
      rfl
    · rw [if_neg hev]
      have hInv : WinInv cap (xs ++ [c]) { w with queue := q2, count := w.count + 1 } := by
        refine ⟨hwcap, ?_, hq2pair, ?_, ?_⟩
        · show w.count + 1 = (xs ++ [c]).length
          simp [hwcount]
        · intro d hd
          obtain ⟨he1, he2, he3⟩ := hq2elem d hd
          refine ⟨by simpa using he1, ?_, he3⟩
          simp only [List.length_append, List.length_singleton]
          have hd2 := hd
          rw [hq2eq] at hd2
          rcases List.mem_cons.mp hd2 with rfl | hdt
          · omega
          · have hpos := (htailmem d hdt).2.1
            omega
        · intro j hj1 hj2
          simp only [List.length_append, List.length_singleton] at hj1 hj2 ⊢
          exact hq2window j hj1 (by omega)
      refine ⟨hInv, ?_⟩
      rw [hfront, if_neg (by omega : ¬ xs.length < cap)]
      have hout := output_min cap (xs ++ [c]) _ hInv front hfront
      simp only [List.length_append, List.length_singleton] at hout
      have hk : xs.length + 1 - 1 - cap = xs.length - cap := by omega
      rw [hk] at hout
      rw [hout]
      rfl

theorem windowRun_spec (cap : Nat) (hcap : 2 ≤ cap) :
    ∀ (cs xs : List Nat) (w : MinimizerWindow), WinInv cap xs w →
      ∀ i, i < cs.length →
        (windowRun w cs).getD i none =
          if xs.length + i < cap then none
          else ((xs ++ cs.take (i + 1)).drop (xs.length + i - cap)).min? := by
  intro cs
  induction cs with
  | nil =>
    intro xs w hinv i hi
    simp at hi
  | cons c rest ih =>
    intro xs w hinv i hi
    have hstep := window_step cap hcap xs w c hinv
    simp only [windowRun]
    cases i with
    | zero =>
      simp only [List.getD_cons_zero]
      rw [hstep.2]
      simp only [Nat.add_zero, List.take_succ_cons, List.take_zero]
    | succ j =>
      simp only [List.getD_cons_succ]
      rw [ih (xs ++ [c]) (w.next c).2 hstep.1 j (by simpa using hi)]
      have hlen : (xs ++ [c]).length = xs.length + 1 := by simp
      rw [hlen]
      have hlist : ((xs ++ [c]) ++ rest.take (j + 1)) = xs ++ (c :: rest).take (j + 1 + 1) := by
        rw [List.take_succ_cons, List.append_assoc]
        rfl
      rw [hlist]
      have harith1 : xs.length + 1 + j = xs.length + (j + 1) := by omega
      rw [harith1]

/-- Claim C2 (amended): for a Meros with k_mer at least l_mer + 2 (so the
deque capacity is at least 2 and the capacity-1 shortcut is not taken),
the minimizer window emits nothing for the first w - 1 candidates, where
w = k_mer - l_mer + 1, and from the w-th candidate on each step emits the
smallest of the most recent w candidate l-mers. -/
theorem c2_sliding_window_min (m : Meros) (h2 : m.l_mer + 2 ≤ m.k_mer)
    (cs : List Nat) (i : Nat) (hi : i < cs.length) :
    (windowRun (MinimizerWindow.new m.window_size) cs).getD i none =
      if i + 1 < m.k_mer - m.l_mer + 1 then none
      else ((cs.take (i + 1)).drop (i + 1 - (m.k_mer - m.l_mer + 1))).min? := by
  have hcap : 2 ≤ m.window_size := by
    unfold Meros.window_size
    omega
  have h := windowRun_spec m.window_size hcap cs [] (MinimizerWindow.new m.window_size)
    (winInv_init _) i hi
  simp only [List.nil_append, List.length_nil, Nat.zero_add] at h
  rw [h]
  unfold Meros.window_size
  by_cases hcond : i < m.k_mer - m.l_mer
  · rw [if_pos hcond, if_pos (by omega)]
  · rw [if_neg hcond, if_neg (by omega)]
    have hidx : i - (m.k_mer - m.l_mer) = i + 1 - (m.k_mer - m.l_mer + 1) := by omega
    rw [hidx]

/-- Witness for C2 (amended): k=9, l=5 gives w = 5; on the candidate
stream [5,3,7,2,6] the fifth step emits the window minimum 2. -/
theorem c2_sliding_window_min_witness :
    (Meros.new 9 5 none none none).l_mer + 2 ≤ (Meros.new 9 5 none none none).k_mer ∧
    4 < ([5, 3, 7, 2, 6] : List Nat).length ∧
    (windowRun (MinimizerWindow.new (Meros.new 9 5 none none none).window_size)
        [5, 3, 7, 2, 6]).getD 4 none =
      (if 4 + 1 < (Meros.new 9 5 none none none).k_mer - (Meros.new 9 5 none none none).l_mer + 1
       then none
       else ((([5, 3, 7, 2, 6] : List Nat).take (4 + 1)).drop
         (4 + 1 - ((Meros.new 9 5 none none none).k_mer - (Meros.new 9 5 none none none).l_mer + 1))).min?) :=
  ⟨by decide, by decide,
    c2_sliding_window_min (Meros.new 9 5 none none none) (by decide) [5, 3, 7, 2, 6] 4 (by decide)⟩
